import Mathlib

/- Verification development for the StarSpace dialogue-ranking agent
(`parlai/agents/starspace/starspace.py`).  The agent's data model and
operations are shallowly embedded: token-index sequences are `List ℤ`
(`torch.LongTensor` contents), similarity scores are `ℚ`, random draws are
passed in explicitly as streams of naturals, and the external embedding
model (`parlai.agents.starspace.modules`, not part of the sources here) is
abstracted as function parameters. -/

namespace Starspace

/-! ### Stable descending sort on (index, score) pairs

Python's `sorted` is stable; the spec specifies the candidate-score sort
(`torch.Tensor.sort(descending=True)`, an external collaborator) as a stable
descending sort as well.  `insertDesc`/`sortDesc` implement a stable
insertion sort by descending second component: the inserted pair moves past
strictly greater scores only, so earlier pairs stay first on ties. -/
def insertDesc {σ : Type} [LinearOrder σ] (p : ℕ × σ) : List (ℕ × σ) → List (ℕ × σ)
  | [] => [p]
  | q :: l => if p.2 < q.2 then q :: insertDesc p l else p :: q :: l

def sortDesc {σ : Type} [LinearOrder σ] : List (ℕ × σ) → List (ℕ × σ)
  | [] => []
  | p :: l => insertDesc p (sortDesc l)

/-! ### The sameness test and the negative-sample cache -/
/-- Numeric sameness test from `StarspaceAgent.same` (lines 237-242), on the
squeezed one-dimensional views of two targets: not same when the lengths
differ, and not same when the absolute value of the *sum of the elementwise
differences* exceeds `0.00001` (the entries are integer token indices, so the
sum is an integer). -/
def same (y1 y2 : List ℤ) : Bool :=
  if y1.length ≠ y2.length then false
  else if (1 : ℚ) / 100000 < |((((y1.zip y2).map (fun p => p.1 - p.2)).sum : ℤ) : ℚ)| then false
  else true

/-- The spec's wording of numeric equality for claim C1 ("same length and
summed *absolute* elementwise difference below `1e-5`"), stated from the spec
for comparison with `same`.  For integer sequences `specNumEq` implies
`same`, but not conversely. -/
def specNumEq (y1 y2 : List ℤ) : Bool :=
  y1.length == y2.length &&
    decide (((((y1.zip y2).map (fun p => |p.1 - p.2|)).sum : ℤ) : ℚ) < 1 / 100000)

/-- One round of the rejection loop of `StarspaceAgent.get_negs`
(lines 250-256).  `attempts` holds the remaining loop indices `i` of
`range(1, 3 * k)`, `draws i` is the value drawn by `random.randint(0,
cache_sz)` at attempt `i` (normalised modulo the cache length so every draw
names an existing slot), and `negs` accumulates the accepted negatives.  The
loop breaks as soon as `k` negatives have been collected. -/
def get_negs_loop {γ : Type} (sameFn : γ → γ → Bool) (cache : List γ) (ys : γ)
    (k : ℕ) (draws : ℕ → ℕ) : List ℕ → List γ → List γ
  | [], negs => negs
  | i :: rest, negs =>
    let neg := cache.getD (draws i % cache.length) ys
    if sameFn ys neg then get_negs_loop sameFn cache ys k draws rest negs
    else
      let negs' := negs ++ [neg]
      if k ≤ negs'.length then negs'
      else get_negs_loop sameFn cache ys k draws rest negs'

/-- `StarspaceAgent.get_negs` (lines 244-262), generic in the type `γ` of
cached target tensors.  `sameFn` is the sameness test (`same` on the squeezed
views), `inject` lifts the raw last-utterance token list to a tensor
(`unsqueeze(0)`), `k` is `opt['neg_samples']`, `parrot` is
`opt['parrot_neg']` and `utt` is `history['last_utterance']`.  When the cache
holds fewer than two entries (`cache_sz < 1`) the function returns no
negatives at once, skipping the parrot branch. -/
def get_negs {γ : Type} (sameFn : γ → γ → Bool) (inject : List ℤ → γ)
    (cache : List γ) (ys : γ) (k : ℕ) (parrot : ℕ) (utt : List ℤ)
    (draws : ℕ → ℕ) : List γ :=
  if cache.length < 2 then []
  else
    let negs := get_negs_loop sameFn cache ys k draws (List.range' 1 (3 * k - 1)) []
    if 0 < parrot ∧ 2 < utt.length then negs ++ [inject utt] else negs

/-! ### The bounded cache write -/
/-- `StarspaceAgent.add_to_ys_cache` (lines 408-415), generic in the type `γ`
of stored targets.  `isEmptyT` models `len(ys) == 0`, `cap` is
`opt['cache_size']` and `draw` models the value of
`random.randint(0, cap - 1)` (normalised modulo `cap`).  The overwrite branch
returns `none` when `cap = 0`, since `random.randint(0, -1)` raises.  In the
immutable embedding the `copy.deepcopy` of the stored target is value
equality. -/
def add_to_ys_cache {γ : Type} (isEmptyT : γ → Bool) (cache : List γ) (cap : ℕ)
    (ys : Option γ) (draw : ℕ) : Option (List γ) :=
  match ys with
  | none => some cache
  | some y =>
    if isEmptyT y then some cache
    else if cache.length < cap then some (cache ++ [y])
    else if cap = 0 then none
    else some (cache.set (draw % cap) y)

/-! ### Training metrics -/
/-- A per-step metrics record `{mean_rank, loss}`. -/
structure Metrics where
  mean_rank : ℕ
  loss : ℚ
deriving DecidableEq

/-- `StarspaceAgent.compute_metrics` (lines 277-286): the positive's score is
`scores[0]`, and `mean_rank` counts the indices in `range(1, len(scores))`
whose score is at least the positive's. -/
def compute_metrics (loss : ℚ) (scores : List ℚ) : Metrics :=
  ⟨((scores.drop 1).filter (fun s => scores.headD 0 ≤ s)).length, loss⟩

/-! ### Label truncation through a bounded deque -/
/-- Python `deque.appendleft` on a deque with `maxlen = m`: when the deque is
full, the displaced element is discarded from the *right* (the opposite
end); a deque with `maxlen = 0` stays empty. -/
def dequeAppendleft (m : ℕ) (d : List ℤ) (x : ℤ) : List ℤ :=
  if m = 0 then []
  else if d.length < m then x :: d
  else x :: d.dropLast

/-- The label-parsing step of `StarspaceAgent.vectorize` (lines 381-383):
`deque(maxlen=truncate)` fed by `extendleft(reversed(tokens))`, i.e. a left
fold of `appendleft` over the reversed token list.  `none` models
`maxlen=None` (no truncation cap configured). -/
def dequeExtendleftRev (cap : Option ℕ) (ts : List ℤ) : List ℤ :=
  match cap with
  | none => ts.reverse.foldl (fun d x => x :: d) []
  | some m => ts.reverse.foldl (dequeAppendleft m) []

/-- The per-label vectorization of `StarspaceAgent.vectorize`: the chosen
label string is tokenized by `parse` (the dictionary's `txt2vec`) and pushed
through the bounded deque. -/
def parse_y (parse : String → List ℤ) (cap : Option ℕ) (label : String) : List ℤ :=
  dequeExtendleftRev cap (parse label)

/-! ### Configuration override -/
/-- `StarspaceAgent.override_opt` (lines 189-206): `opt` is the agent's
configuration mapping, `new_opt` the loaded option items in iteration order;
only keys in `model_args = {'embeddingsize', 'optimizer'}` are copied into
the configuration, every other item is skipped. -/
def override_opt {α : Type} (opt : String → Option α)
    (new_opt : List (String × α)) : String → Option α :=
  new_opt.foldl
    (fun o kv =>
      if kv.1 = "embeddingsize" ∨ kv.1 = "optimizer" then
        fun k => if k = kv.1 then some kv.2 else o k
      else o)
    opt

/-! ### Candidate-file parsing (`load_cands`, lines 31-65)

Lines are modelled as character lists; a file is the list of its lines
(line iteration of the Python file object), without trailing newlines —
`str.strip` removes surrounding whitespace anyway. -/
/-- The whitespace test of Python `str.strip`. -/
def isPyWs (c : Char) : Bool :=
  c = ' ' || c = '\t' || c = '\n' || c = '\r' || c = '\x0b' || c = '\x0c'

/-- `line.strip()`: drop whitespace from both ends. -/
def stripWs (l : List Char) : List Char :=
  ((l.dropWhile isPyWs).reverse.dropWhile isPyWs).reverse

/-- `line.replace('\\n', '\n')`: left-to-right non-overlapping replacement of
the two-character escape backslash-n by a newline character. -/
def replaceEscNl : List Char → List Char
  | '\\' :: 'n' :: rest => '\n' :: replaceEscNl rest
  | c :: rest => c :: replaceEscNl rest
  | [] => []

/-- `line.strip().replace('\\n', '\n')` (line 44). -/
def cleanLine (l : List Char) : List Char :=
  replaceEscNl (stripWs l)

/-- Everything after the first space of the list (helper for the slice
`line[space_idx + 1:]`). -/
def dropThroughSpace : List Char → List Char
  | [] => []
  | c :: rest => if c = ' ' then rest else dropThroughSpace rest

/-- `space_idx = line.find(' '); line = line[space_idx + 1:]` (lines 55-56):
when the line has no space, `find` returns `-1` and the slice `line[0:]` is
the whole line. -/
def afterIdPrefix (l : List Char) : List Char :=
  if ' ' ∈ l then dropThroughSpace l else l

/-- `line.split('\t')`. -/
def splitTab : List Char → List (List Char)
  | [] => [[]]
  | c :: rest =>
    let r := splitTab rest
    if c = '\t' then [] :: r
    else
      match r with
      | h :: t => (c :: h) :: t
      | [] => [[c]]

/-- The loop state of `load_cands`: accumulated candidates and the
`lines_have_ids` / `cands_are_replies` flags plus the non-empty-line counter
`cnt`. -/
structure LCState where
  cands : List (List Char)
  linesHaveIds : Bool
  candsAreReplies : Bool
  cnt : ℕ
deriving DecidableEq

/-- The test `len(sp) > 1 and sp[1] != ''` with the kept field `sp[1]`
(lines 58-60): the second tab-separated field, when present and
non-empty. -/
def secondField (sp : List (List Char)) : Option (List Char) :=
  match sp with
  | _ :: s1 :: _ => if s1 = [] then none else some s1
  | _ => none

/-- One iteration of the `load_cands` line loop (lines 43-64). -/
def load_cands_step (st : LCState) (raw : List Char) : LCState :=
  let line := cleanLine raw
  if line.length = 0 then st
  else
    let cnt := st.cnt + 1
    let linesHaveIds :=
      if cnt = 1 ∧ line.take 2 = ['1', ' '] then true else st.linesHaveIds
    let startReplies := ('\t' ∈ line) ∧ st.candsAreReplies = false
    let candsAreReplies := if startReplies then true else st.candsAreReplies
    let cands0 := if startReplies then [] else st.cands
    if linesHaveIds then
      if candsAreReplies then
        match secondField (splitTab (afterIdPrefix line)) with
        | some s => ⟨cands0 ++ [s], linesHaveIds, candsAreReplies, cnt⟩
        | none => ⟨cands0, linesHaveIds, candsAreReplies, cnt⟩
      else ⟨cands0 ++ [afterIdPrefix line], linesHaveIds, candsAreReplies, cnt⟩
    else ⟨cands0 ++ [line], linesHaveIds, candsAreReplies, cnt⟩

/-- `load_cands` (lines 31-65) on an already-opened file, given as its list
of lines. -/
def load_cands (ls : List (List Char)) : List (List Char) :=
  (ls.foldl load_cands_step ⟨[], false, false, 0⟩).cands

/-- Reply-form extraction of a single line, as `load_cands` performs it once
both flags are set: clean the line, skip it when empty, strip the id prefix
at the first space, split on tabs, and keep the second field when present
and non-empty. -/
def replyFormExtract (raw : List Char) : Option (List Char) :=
  let line := cleanLine raw
  if line.length = 0 then none
  else secondField (splitTab (afterIdPrefix line))

/-! ### Vectorization (`StarspaceAgent.vectorize`, lines 340-406) -/
/-- A target or candidate tensor: a list of token-index rows (the contents
of a two-dimensional `torch.LongTensor`). -/
abbrev Mat := List (List ℤ)

/-- An observation as `vectorize` consumes it: the tokenized,
history-augmented context (`text2vec`, set by `observe`; `none` when the
field is missing), the `labels` field and the `label_candidates` field. -/
structure Obs where
  text2vec : Option (List ℤ)
  labels : Option (List String)
  labelCands : Option (List String)
deriving DecidableEq, Inhabited

/-- `'text2vec' in obs and len(obs['text2vec']) > 0` (lines 342-344). -/
def validObs (o : Obs) : Bool :=
  match o.text2vec with
  | some l => decide (0 < l.length)
  | none => false

/-- The context token list of an observation (empty when absent). -/
def ctxOf (o : Obs) : List ℤ :=
  o.text2vec.getD []

/-- Right-pad every row with the null index `0` up to length `len`
(lines 369-371 pad the context rows — the source appends `[self.NULL_IDX]`
singleton objects ahead of tensor construction, whose tensor content is the
null index — and lines 385-386 pad the label rows with `self.NULL_IDX`). -/
def padRows (len : ℕ) (rows : Mat) : Mat :=
  rows.map (fun r => r ++ List.replicate (len - r.length) 0)

/-- `max(len(x) for x in rows)` (with 0 for an empty batch). -/
def maxLen (rows : Mat) : ℕ :=
  (rows.map List.length).foldr max 0

/-- `random.choice(ex.get('labels', ['']))` (line 379): `labelDraws i` is the
random choice made for the `i`-th sorted example, normalised modulo the
number of labels.  A missing `labels` field falls back to `['']`.  (CPython
raises on `random.choice([])`; a present-but-empty label list is a case no
claim exercises, and the embedding returns `""` there.) -/
def selectLabel (labelDraws : ℕ → ℕ) (i : ℕ) (ex : Obs) : String :=
  let ls := ex.labels.getD [""]
  ls.getD (labelDraws i % ls.length) ""

/-- The target-side construction of `vectorize` (lines 377-388) on the
length-sorted valid examples: select one label per example, tokenize it
through the bounded deque (`parse_y`), and right-pad all label rows to their
maximum length. -/
def buildYs (parse : String → List ℤ) (truncate : Option ℕ)
    (labelDraws : ℕ → ℕ) (exs : List Obs) : Mat :=
  let parsed_y := (exs.mapIdx (selectLabel labelDraws)).map (parse_y parse truncate)
  padRows (maxLen parsed_y) parsed_y

/-- The four outputs of `vectorize`: `(xs, ys, cands, cands_txt)`, all `none`
when no valid example remains. -/
structure VecOut where
  xs : Option Mat
  ys : Option Mat
  cands : Option (List (Option (List Mat)))
  candsTxt : Option (List (Option (List String)))
deriving DecidableEq

/-- The sort order of `vectorize` (line 360): indices of the valid examples
sorted by descending context length, ties in original order (Python's
stable `sorted` keyed on `-len`). -/
def ind_sorted (observations : List Obs) : List ℕ :=
  (sortDesc (((observations.filter validObs).map ctxOf).map List.length).enum).map
    (fun p => p.1)

/-- The valid examples in length-sorted order (line 362). -/
def sortedValid (observations : List Obs) : List Obs :=
  (ind_sorted observations).map (fun k => (observations.filter validObs).getD k default)

/-- The valid contexts in length-sorted order (line 364). -/
def sortedCtxs (observations : List Obs) : List (List ℤ) :=
  (ind_sorted observations).map
    (fun k => ((observations.filter validObs).map ctxOf).getD k [])

/-- `StarspaceAgent.vectorize` (lines 340-406).  `parse` is the dictionary's
`txt2vec`, `truncate` the configured label cap, `labelDraws` the stream of
random label choices.  The valid examples are sorted by descending context
length; the original batch positions `valid_inds` are computed by the source
(lines 347, 363) but are neither returned nor otherwise used, so the
embedding drops them just as the source does.  Candidate lists are built per
*observation* (line 394), each candidate tokenized and kept as a one-row
tensor (`unsqueeze(0)`, line 399) alongside its original text. -/
def vectorize (parse : String → List ℤ) (truncate : Option ℕ)
    (labelDraws : ℕ → ℕ) (observations : List Obs) : VecOut :=
  let ve := observations.filter validObs
  if ve.isEmpty then ⟨none, none, none, none⟩
  else
    let exs := sortedValid observations
    let parsed_x := sortedCtxs observations
    let labels_avail := exs.any (fun ex => ex.labels.isSome)
    let xs := padRows (maxLen parsed_x) parsed_x
    let ys :=
      if labels_avail then some (buildYs parse truncate labelDraws exs) else none
    let cands : List (Option (List Mat)) :=
      if labels_avail then []
      else observations.map
        (fun o => o.labelCands.map (fun cl => cl.map (fun c => [parse c])))
    let candsTxt : List (Option (List String)) :=
      if labels_avail then [] else observations.map (fun o => o.labelCands)
    ⟨some xs, ys, some cands, some candsTxt⟩

/-- Rectangularity of a padded batch: every row has exactly length `len`. -/
def rectRows (rows : Mat) (len : ℕ) : Bool :=
  rows.all (fun r => r.length == len)

/-- Left alignment of a padded row: after the first null index only null
indices follow, i.e. the padding index never appears strictly before a
non-padding index. -/
def leftAligned (r : List ℤ) : Bool :=
  (r.dropWhile (fun a => a != 0)).all (fun a => a == 0)

/-! ### Prediction and acting (`predict`, `batch_act`, lines 288-338 and
417-428) -/
/-- A structured reply record, one entry of the list `predict` returns:
`{}`, `{'metrics': m}`, or `{'text': ..., 'text_candidates': ...}`. -/
inductive Reply where
  | empty : Reply
  | metrics : Metrics → Reply
  | ranked : String → List String → Reply
deriving DecidableEq

/-- The per-instance agent state read and written by `predict`/`batch_act`:
the negative-sample cache `ys_cache` with its capacity `cache_size`, the
sampling options `neg_samples` and `parrot_neg`, the history's last
utterance, and the model-with-optimizer state abstracted as a value of type
`μ` (the network and optimizer live in `modules.py` and `torch`, outside
these sources). -/
structure StarState (μ : Type) where
  ysCache : List Mat
  ysCacheSz : ℕ
  negSamples : ℕ
  parrotNeg : ℕ
  lastUtterance : List ℤ
  model : μ

/-- The candidate-ranking tail of `predict`'s evaluation branch (lines
327-337): stable-sort the per-candidate scores descending (`sortDesc`,
modelling `pred.sort(descending=True)` as the spec specifies it), reply with
the highest-scoring candidate's text, and list the texts of the first
`min(100, n)` sorted candidates. -/
def rank_candidates (scores : List ℚ) (texts : List String) : Reply :=
  let inds := (sortDesc scores.enum).map (fun p => p.1)
  let ypred := texts.getD (inds.headD 0) ""
  let tc := (List.range (min 100 inds.length)).map
    (fun i => texts.getD (inds.getD i 0) "")
  Reply.ranked ypred tc

/-- `StarspaceAgent.predict` (lines 288-338).  The embedding model, loss,
backward pass and optimizer step are external collaborators
(`modules.Starspace`, `torch.nn`, `torch.optim`) and are abstracted:
`trainStep` maps the model state, padded inputs, target and negatives to the
stepped model state, the loss value and the per-candidate cosine scores
(positive first); `evalScores` gives the evaluation branch's per-candidate
cosine similarities.  `sameFn` is the sameness test on stored target
tensors (`same` on their squeezed views) and `inject` is the `unsqueeze(0)`
lift of the last utterance, both forwarded to `get_negs`.  Training mode is
selected by the presence of a target; with zero sampled negatives the
training body is skipped and the trailing `return [{}]` is reached.  The
evaluation branch requires `cands[0]`; otherwise it falls back to the fixed
candidate set when one is configured, and to `[{}]` when not. -/
def predict {μ : Type} (sameFn : Mat → Mat → Bool) (inject : List ℤ → Mat)
    (trainStep : μ → Mat → Mat → List Mat → μ × ℚ × List ℚ)
    (evalScores : μ → Mat → List Mat → List ℚ)
    (fixedCands : Option (List Mat × List String))
    (st : StarState μ) (v : VecOut) (negDraws : ℕ → ℕ) : List Reply × μ :=
  match v.ys with
  | some y =>
    let negs := get_negs sameFn inject st.ysCache y st.negSamples st.parrotNeg
      st.lastUtterance negDraws
    if 0 < negs.length then
      let out := trainStep st.model (v.xs.getD []) y negs
      ([Reply.metrics (compute_metrics out.2.1 out.2.2)], out.1)
    else ([Reply.empty], st.model)
  | none =>
    match v.cands with
    | none =>
      match fixedCands with
      | some fc =>
        ([rank_candidates (evalScores st.model (v.xs.getD []) fc.1) fc.2], st.model)
      | none => ([Reply.empty], st.model)
    | some cl =>
      match cl.headD none with
      | none =>
        match fixedCands with
        | some fc =>
          ([rank_candidates (evalScores st.model (v.xs.getD []) fc.1) fc.2], st.model)
        | none => ([Reply.empty], st.model)
      | some c0 =>
        let texts0 := ((v.candsTxt.getD []).headD none).getD []
        ([rank_candidates (evalScores st.model (v.xs.getD []) c0) texts0], st.model)

/-- `StarspaceAgent.batch_act` (lines 417-428): vectorize the observations,
predict (which in training mode samples negatives from the cache), then add
the just-seen target to the cache.  The reply table initialized at line 420
(one `{'id': ...}` per observation) is immediately overwritten by
`predict`'s return value at line 426 and is dead, so the embedding omits the
dead store.  Returns `none` when the cache write raises (capacity 0). -/
def batch_act {μ : Type} (sameFn : Mat → Mat → Bool) (inject : List ℤ → Mat)
    (trainStep : μ → Mat → Mat → List Mat → μ × ℚ × List ℚ)
    (evalScores : μ → Mat → List Mat → List ℚ)
    (fixedCands : Option (List Mat × List String))
    (parse : String → List ℤ) (truncate : Option ℕ)
    (st : StarState μ) (observations : List Obs)
    (labelDraws negDraws : ℕ → ℕ) (addDraw : ℕ) :
    Option (List Reply × StarState μ) :=
  let v := vectorize parse truncate labelDraws observations
  let pr := predict sameFn inject trainStep evalScores fixedCands st v negDraws
  match add_to_ys_cache (fun m => m.isEmpty) st.ysCache st.ysCacheSz v.ys addDraw with
  | some c2 => some (pr.1, { st with ysCache := c2, model := pr.2 })
  | none => none

theorem insertDesc_perm {σ : Type} [LinearOrder σ] (p : ℕ × σ) (l : List (ℕ × σ)) :
    (insertDesc p l).Perm (p :: l) := by
  induction l with
  | nil => simp [insertDesc]
  | cons q l ih =>
    by_cases h : p.2 < q.2
    · simpa [insertDesc, if_pos h] using (ih.cons q).trans (List.Perm.swap p q l)
    · simp [insertDesc, if_neg h]

theorem sortDesc_perm {σ : Type} [LinearOrder σ] (l : List (ℕ × σ)) :
    (sortDesc l).Perm l := by
  induction l with
  | nil => simp [sortDesc]
  | cons p l ih => exact (insertDesc_perm p (sortDesc l)).trans (ih.cons p)

theorem pairwise_insertDesc {σ : Type} [LinearOrder σ] (p : ℕ × σ) (l : List (ℕ × σ))
    (h : l.Pairwise (fun a b => b.2 ≤ a.2)) :
    (insertDesc p l).Pairwise (fun a b => b.2 ≤ a.2) := by
  induction l with
  | nil => simp [insertDesc]
  | cons q l ih =>
    rcases List.pairwise_cons.mp h with ⟨hq, hl⟩
    by_cases hc : p.2 < q.2
    · simp only [insertDesc, if_pos hc]
      refine List.pairwise_cons.mpr ⟨?_, ih hl⟩
      intro b hb
      rcases List.mem_cons.mp ((insertDesc_perm p l).mem_iff.mp hb) with rfl | hbl
      · exact le_of_lt hc
      · exact hq b hbl
    · simp only [insertDesc, if_neg hc]
      have hpq : q.2 ≤ p.2 := le_of_not_lt hc
      refine List.pairwise_cons.mpr ⟨?_, h⟩
      intro b hb
      rcases List.mem_cons.mp hb with rfl | hbl
      · exact hpq
      · exact (hq b hbl).trans hpq

theorem pairwise_sortDesc {σ : Type} [LinearOrder σ] (l : List (ℕ × σ)) :
    (sortDesc l).Pairwise (fun a b => b.2 ≤ a.2) := by
  induction l with
  | nil => simp [sortDesc]
  | cons p l ih => exact pairwise_insertDesc p (sortDesc l) ih

theorem filter_insertDesc {σ : Type} [LinearOrder σ] (c : σ) (p : ℕ × σ)
    (l : List (ℕ × σ)) :
    (insertDesc p l).filter (fun q => decide (q.2 = c)) =
      if p.2 = c then p :: l.filter (fun q => decide (q.2 = c))
      else l.filter (fun q => decide (q.2 = c)) := by
  induction l with
  | nil => by_cases hp : p.2 = c <;> simp [insertDesc, hp]
  | cons q l ih =>
    by_cases hc : p.2 < q.2
    · simp only [insertDesc, if_pos hc]
      by_cases hp : p.2 = c
      · have hq : ¬(q.2 = c) := by
          intro hqc
          exact absurd hc (by simp [hp, hqc])
        simp [List.filter_cons, hp, hq, ih]
      · by_cases hq : q.2 = c <;> simp [List.filter_cons, hp, hq, ih]
    · simp only [insertDesc, if_neg hc]
      by_cases hp : p.2 = c <;> by_cases hq : q.2 = c <;>
        simp [List.filter_cons, hp, hq]

theorem filter_sortDesc {σ : Type} [LinearOrder σ] (c : σ) (l : List (ℕ × σ)) :
    (sortDesc l).filter (fun q => decide (q.2 = c)) =
      l.filter (fun q => decide (q.2 = c)) := by
  induction l with
  | nil => simp [sortDesc]
  | cons p l ih =>
    by_cases hp : p.2 = c <;>
      simp [sortDesc, filter_insertDesc, List.filter_cons, hp, ih]

theorem abs_list_sum_le (l : List ℤ) : |l.sum| ≤ (l.map (fun x => |x|)).sum := by
  induction l with
  | nil => simp
  | cons x l ih =>
    simp only [List.sum_cons, List.map_cons]
    calc |x + l.sum| ≤ |x| + |l.sum| := abs_add _ _
      _ ≤ |x| + (l.map (fun x => |x|)).sum := by linarith

theorem same_of_specNumEq (y1 y2 : List ℤ) (h : specNumEq y1 y2 = true) :
    same y1 y2 = true := by
  rcases (Bool.and_eq_true _ _).mp h with ⟨hlen, habs⟩
  have hlen' : y1.length = y2.length := by simpa using hlen
  set ds : List ℤ := (y1.zip y2).map (fun p => p.1 - p.2) with hds
  have habs' : ((((y1.zip y2).map (fun p => |p.1 - p.2|)).sum : ℤ) : ℚ) < 1 / 100000 :=
    of_decide_eq_true habs
  have hnn : 0 ≤ ((y1.zip y2).map (fun p => |p.1 - p.2|)).sum := by
    apply List.sum_nonneg
    intro x hx
    rcases List.mem_map.mp hx with ⟨p, _, rfl⟩
    exact abs_nonneg _
  have hzero : ((y1.zip y2).map (fun p => |p.1 - p.2|)).sum = 0 := by
    by_contra hne
    have h1 : (1 : ℤ) ≤ ((y1.zip y2).map (fun p => |p.1 - p.2|)).sum :=
      lt_of_le_of_ne hnn (Ne.symm hne)
    have : (1 : ℚ) ≤ ((((y1.zip y2).map (fun p => |p.1 - p.2|)).sum : ℤ) : ℚ) := by
      exact_mod_cast h1
    have hlt : ((((y1.zip y2).map (fun p => |p.1 - p.2|)).sum : ℤ) : ℚ) < 1 := by
      calc ((((y1.zip y2).map (fun p => |p.1 - p.2|)).sum : ℤ) : ℚ)
          < 1 / 100000 := habs'
        _ < 1 := by norm_num
    linarith
  have hsum : ds.sum = 0 := by
    have hle : |ds.sum| ≤ ((y1.zip y2).map (fun p => |p.1 - p.2|)).sum := by
      have : ((y1.zip y2).map (fun p => |p.1 - p.2|)) = ds.map (fun x => |x|) := by
        simp [hds, List.map_map, Function.comp]

      rw [this]
      exact abs_list_sum_le ds
    have := hle.trans_eq hzero
    exact abs_eq_zero.mp (le_antisymm this (abs_nonneg _))
  simp [same, hlen', hds.symm, hsum]

theorem get_negs_loop_length_le {γ : Type} (sameFn : γ → γ → Bool) (cache : List γ)
    (ys : γ) (k : ℕ) (draws : ℕ → ℕ) (attempts : List ℕ) (negs : List γ)
    (h : negs.length < k) :
    (get_negs_loop sameFn cache ys k draws attempts negs).length ≤ k := by
  induction attempts generalizing negs with
  | nil => exact le_of_lt h
  | cons i rest ih =>
    simp only [get_negs_loop]
    by_cases hs : sameFn ys (cache.getD (draws i % cache.length) ys) = true
    · simp only [hs, if_true]
      exact ih negs h
    · simp only [hs, if_false, Bool.false_eq_true]
      have hlen : (negs ++ [cache.getD (draws i % cache.length) ys]).length =
          negs.length + 1 := by simp
      by_cases hk : k ≤ (negs ++ [cache.getD (draws i % cache.length) ys]).length
      · simp only [hk, if_true]
        omega
      · simp only [hk, if_false]
        exact ih _ (by omega)

theorem get_negs_loop_mem {γ : Type} (sameFn : γ → γ → Bool) (cache : List γ)
    (ys : γ) (k : ℕ) (draws : ℕ → ℕ) (hc : cache ≠ []) (attempts : List ℕ)
    (negs : List γ) (hn : ∀ n ∈ negs, n ∈ cache ∧ sameFn ys n = false) :
    ∀ n ∈ get_negs_loop sameFn cache ys k draws attempts negs,
      n ∈ cache ∧ sameFn ys n = false := by
  induction attempts generalizing negs with
  | nil => exact hn
  | cons i rest ih =>
    simp only [get_negs_loop]
    have hidx : draws i % cache.length < cache.length :=
      Nat.mod_lt _ (List.length_pos.mpr hc)
    have hmem : cache.getD (draws i % cache.length) ys ∈ cache := by
      rw [List.getD_eq_getElem cache ys hidx]
      exact List.getElem_mem hidx
    by_cases hs : sameFn ys (cache.getD (draws i % cache.length) ys) = true
    · simp only [hs, if_true]
      exact ih negs hn
    · simp only [hs, if_false, Bool.false_eq_true]
      have hn' : ∀ n ∈ negs ++ [cache.getD (draws i % cache.length) ys],
          n ∈ cache ∧ sameFn ys n = false := by
        intro n hmem'
        rcases List.mem_append.mp hmem' with h1 | h2
        · exact hn n h1
        · rcases List.mem_singleton.mp h2 with rfl
          exact ⟨hmem, Bool.not_eq_true _ ▸ Bool.of_not_eq_true hs⟩
      by_cases hk : k ≤ (negs ++ [cache.getD (draws i % cache.length) ys]).length
      · simp only [hk, if_true]
        exact hn'
      · simp only [hk, if_false]
        exact ih _ hn'

/-- C1 (amended): for every call to the negative sampler with the
parrot-negative option disabled, *at most* `k` negatives are returned (the
exact count depends on the random draws and may fall short even when the
cache holds `k + 1` entries of which `k` differ from the target), each
returned negative is an existing cache entry, and none of them is numerically
the same as the true target `ys` — neither under the code's test `same` nor
under the spec's summed-absolute-difference equality `specNumEq`; the sampler
makes at most `3k - 1 ≤ 3k` draw attempts. -/
theorem get_negs_at_most_k (cache : List (List ℤ)) (ys : List ℤ) (k : ℕ)
    (utt : List ℤ) (draws : ℕ → ℕ) :
    (get_negs same id cache ys k 0 utt draws).length ≤ k ∧
      ∀ n ∈ get_negs same id cache ys k 0 utt draws,
        n ∈ cache ∧ same ys n = false ∧ specNumEq ys n = false := by
  unfold get_negs
  by_cases hc : cache.length < 2
  · simp [hc]
  · have hc0 : cache ≠ [] := by
      intro h
      rw [h] at hc
      simp at hc
    have hpar : ¬(0 < 0 ∧ 2 < utt.length) := by simp
    simp only [if_neg hc, hpar, if_false]
    constructor
    · rcases Nat.eq_zero_or_pos k with rfl | hk
      · simp [get_negs_loop]
      · exact get_negs_loop_length_le same cache ys k draws _ [] (by simpa using hk)
    · intro n hn
      have hmm := get_negs_loop_mem same cache ys k draws hc0 _ [] (by simp) n hn
      refine ⟨hmm.1, hmm.2, ?_⟩
      cases hsp : specNumEq ys n
      · rfl
      · exact absurd (same_of_specNumEq ys n hsp) (by simp [hmm.2])

/-- C1 counterexample: with `k = 1`, a cache of `k + 1 = 2` entries of which
`k = 1` is not numerically equal to the target `[1]`, the draw stream that
always picks slot `0` (the entry equal to the target) exhausts all `3k - 1`
attempts and returns `0 ≠ k` negatives, refuting "exactly `k` negatives are
returned". -/
theorem get_negs_not_exactly_k :
    (([[1], [2]] : List (List ℤ)).length = 1 + 1 ∧
        (([[1], [2]] : List (List ℤ)).filter (fun n => !specNumEq [1] n)).length = 1) ∧
      (get_negs same id [[1], [2]] [1] 1 0 [] (fun _ => 0)).length = 0 := by
  have h0 : same ([1] : List ℤ) [1] = true := by
    norm_num [same]
  have h2 : specNumEq ([1] : List ℤ) [1] = true := by
    norm_num [specNumEq]
  have h3 : specNumEq ([1] : List ℤ) [2] = false := by
    norm_num [specNumEq]
  refine ⟨⟨rfl, ?_⟩, ?_⟩
  · simp [List.filter, h2, h3]
  · simp [get_negs, get_negs_loop, List.range', h0]

/-- C2: for every call to the cache's add with capacity `cap ≥ 1`, cache-size
invariant `|cache| ≤ cap` and overwrite slot drawn in `[0, cap)`: a null or
empty target is a no-op; otherwise the call succeeds, the resulting size is
`min cap (|cache| + 1)`, the (deep-copied) target is stored, and when the
cache is full the slot overwritten is exactly the drawn index. -/
theorem add_to_ys_cache_spec {γ : Type} (isEmptyT : γ → Bool) (cache : List γ)
    (cap : ℕ) (y : γ) (d : ℕ) (hcap : 0 < cap) (hinv : cache.length ≤ cap)
    (hd : d < cap) :
    add_to_ys_cache isEmptyT cache cap none d = some cache ∧
      (isEmptyT y = true → add_to_ys_cache isEmptyT cache cap (some y) d = some cache) ∧
      (isEmptyT y = false →
        ∃ cache', add_to_ys_cache isEmptyT cache cap (some y) d = some cache' ∧
          cache'.length = min cap (cache.length + 1) ∧ y ∈ cache' ∧
          (cache.length = cap → cache' = cache.set d y)) := by
  refine ⟨rfl, fun he => by simp [add_to_ys_cache, he], fun he => ?_⟩
  by_cases hlt : cache.length < cap
  · refine ⟨cache ++ [y], by simp [add_to_ys_cache, he, hlt], ?_, ?_, ?_⟩
    · simp
      omega
    · simp
    · intro hEq
      omega
  · have hEq : cache.length = cap := le_antisymm hinv (le_of_not_lt hlt)
    have hcap' : ¬(cap = 0) := by omega
    have hd' : d % cap = d := Nat.mod_eq_of_lt hd
    refine ⟨cache.set (d % cap) y, by simp [add_to_ys_cache, he, hlt, hcap'], ?_, ?_, ?_⟩
    · simp [List.length_set]
      omega
    · rw [hd']
      have hdl : d < (cache.set d y).length := by
        simp [List.length_set]
        omega
      have hy := List.getElem_set_self (l := cache) (i := d) (a := y) hdl
      have hm := List.getElem_mem hdl
      rwa [hy] at hm
    · intro _
      rw [hd']

/-- C2 witness: a concrete successful call of `add_to_ys_cache_spec` at
capacity 2 on a one-entry cache. -/
theorem add_to_ys_cache_spec_witness :
    (0 < 2 ∧ ([[5]] : List (List ℤ)).length ≤ 2 ∧ 1 < 2) ∧
      add_to_ys_cache (fun l => l.isEmpty) ([[5]] : List (List ℤ)) 2 none 1 =
        some [[5]] :=
  ⟨⟨by decide, by decide, by decide⟩,
    (add_to_ys_cache_spec (fun l => l.isEmpty) [[5]] 2 [7] 1 (by decide) (by decide)
      (by decide)).1⟩

theorem dequeExtendleftRev_none (ts : List ℤ) : dequeExtendleftRev none ts = ts := by
  rw [dequeExtendleftRev, List.foldl_reverse]
  induction ts with
  | nil => rfl
  | cons x ts ih => simp only [List.foldr_cons, ih]

theorem dequeExtendleftRev_take (m : ℕ) (ts : List ℤ) :
    dequeExtendleftRev (some m) ts = ts.take m := by
  rw [dequeExtendleftRev, List.foldl_reverse]
  induction ts with
  | nil => simp
  | cons x ts ih =>
    simp only [List.foldr_cons]
    rw [ih]
    cases m with
    | zero => simp [dequeAppendleft]
    | succ k =>
      by_cases h : ts.length < k + 1
      · have h1 : ts.take (k + 1) = ts := List.take_of_length_le (by omega)
        have h2 : ts.take k = ts := List.take_of_length_le (by omega)
        simp [dequeAppendleft, h1, h2, List.take_succ_cons, h]
      · have hlen : (ts.take (k + 1)).length = k + 1 := by
          rw [List.length_take]
          omega
        have hcond : ¬((ts.take (k + 1)).length < k + 1) := by omega
        simp only [dequeAppendleft, Nat.succ_ne_zero, if_false, hcond,
          List.take_succ_cons]
        rw [List.dropLast_eq_take, hlen]
        rw [List.take_take]
        simp [Nat.min_def]

/-- C3 counterexample: with a configured cap of 2 and label tokens
`[1, 2, 3]`, the deque construction keeps the *leading* tokens `[1, 2]`, not
the trailing tokens `[2, 3]` that the claim predicts. -/
theorem parse_y_not_trailing :
    parse_y (fun _ => [1, 2, 3]) (some 2) "lbl" = [1, 2] ∧
      parse_y (fun _ => [1, 2, 3]) (some 2) "lbl" ≠ [2, 3] := by
  constructor <;> decide

/-- C3 (amended): when a truncation cap `m` is configured, the selected
label's token sequence is truncated to the cap by keeping the *leading* `m`
tokens, i.e. tokens are dropped from the right of the sequence. -/
theorem parse_y_keeps_prefix (parse : String → List ℤ) (m : ℕ) (label : String) :
    parse_y parse (some m) label = (parse label).take m :=
  dequeExtendleftRev_take m (parse label)

/-- C10: for every mapping `new_opt` passed to `override_opt`, every
configuration key other than "embeddingsize" and "optimizer" retains its
previous value; in particular every other key of `new_opt` is ignored. -/
theorem override_opt_frame {α : Type} (opt : String → Option α)
    (new_opt : List (String × α)) (k : String)
    (h1 : k ≠ "embeddingsize") (h2 : k ≠ "optimizer") :
    override_opt opt new_opt k = opt k := by
  induction new_opt generalizing opt with
  | nil => rfl
  | cons kv rest ih =>
    have hstep : override_opt opt (kv :: rest) =
        override_opt
          (if kv.1 = "embeddingsize" ∨ kv.1 = "optimizer" then
            (fun k' => if k' = kv.1 then some kv.2 else opt k')
          else opt) rest := rfl
    rw [hstep, ih]
    by_cases hc : kv.1 = "embeddingsize" ∨ kv.1 = "optimizer"
    · simp only [if_pos hc]
      have hk : ¬(k = kv.1) := by
        intro heq
        rcases hc with h | h
        · exact h1 (heq.trans h)
        · exact h2 (heq.trans h)
      simp [hk]
    · simp [if_neg hc]

/-- C10 witness: with `new_opt = [("margin", 9), ("embeddingsize", 3)]`, the
configuration key "margin" keeps its previous value even though `new_opt`
names it. -/
theorem override_opt_frame_witness :
    (("margin" : String) ≠ "embeddingsize" ∧ ("margin" : String) ≠ "optimizer") ∧
      override_opt (fun k => if k = "margin" then some (1 : ℤ) else none)
        [("margin", 9), ("embeddingsize", 3)] "margin" = some 1 :=
  ⟨⟨by decide, by decide⟩,
    (override_opt_frame (fun k => if k = "margin" then some (1 : ℤ) else none)
        [("margin", 9), ("embeddingsize", 3)] "margin" (by decide) (by decide)).trans
      (by decide)⟩

theorem load_cands_fold_replies (ls : List (List Char)) (cands : List (List Char))
    (cnt : ℕ) (hcnt : 1 ≤ cnt) :
    (ls.foldl load_cands_step ⟨cands, true, true, cnt⟩).cands =
      cands ++ ls.filterMap replyFormExtract := by
  induction ls generalizing cands cnt with
  | nil => simp
  | cons l rest ih =>
    by_cases hl : (cleanLine l).length = 0
    · have hstep : load_cands_step ⟨cands, true, true, cnt⟩ l =
          ⟨cands, true, true, cnt⟩ := by
        simp [load_cands_step, hl]
      have hext : replyFormExtract l = none := by
        simp [replyFormExtract, hl]
      simp only [List.foldl_cons, hstep, List.filterMap_cons, hext]
      exact ih cands cnt hcnt
    · have hone : ¬(cnt + 1 = 1 ∧ (cleanLine l).take 2 = ['1', ' ']) := by
        rintro ⟨h, -⟩
        omega
      cases hsf : secondField (splitTab (afterIdPrefix (cleanLine l))) with
      | some s =>
        have hstep : load_cands_step ⟨cands, true, true, cnt⟩ l =
            ⟨cands ++ [s], true, true, cnt + 1⟩ := by
          simp [load_cands_step, hl, hone, hsf]
        have hext : replyFormExtract l = some s := by
          simp [replyFormExtract, hl, hsf]
        simp only [List.foldl_cons, hstep, List.filterMap_cons, hext]
        rw [ih _ (cnt + 1) (by omega)]
        simp
      | none =>
        have hstep : load_cands_step ⟨cands, true, true, cnt⟩ l =
            ⟨cands, true, true, cnt + 1⟩ := by
          simp [load_cands_step, hl, hone, hsf]
        have hext : replyFormExtract l = none := by
          simp [replyFormExtract, hl, hsf]
        simp only [List.foldl_cons, hstep, List.filterMap_cons, hext]
        exact ih cands (cnt + 1) (by omega)

/-- C8 (amended): reply-form parsing applies only when the file is in
numbered form — the first line, after cleaning, is non-empty, starts with
`"1 "` and contains a tab.  Then sticky reply-form detection holds for the
whole file and each line contributes its second tab-separated field (the
text between the first and the second tab), when non-empty, after the id
prefix up to the first space is stripped. -/
theorem load_cands_replyform (l0 : List Char) (rest : List (List Char))
    (h0 : (cleanLine l0).length ≠ 0)
    (h1 : (cleanLine l0).take 2 = ['1', ' '])
    (h2 : '\t' ∈ cleanLine l0) :
    load_cands (l0 :: rest) = (l0 :: rest).filterMap replyFormExtract := by
  have hone : (0 + 1 = 1 ∧ (cleanLine l0).take 2 = ['1', ' ']) := ⟨rfl, h1⟩
  cases hsf : secondField (splitTab (afterIdPrefix (cleanLine l0))) with
  | some s =>
    have hstep : load_cands_step ⟨[], false, false, 0⟩ l0 =
        ⟨[s], true, true, 1⟩ := by
      simp [load_cands_step, h0, hone, h2, hsf]
    have hext : replyFormExtract l0 = some s := by
      simp [replyFormExtract, h0, hsf]
    unfold load_cands
    simp only [List.foldl_cons, hstep, List.filterMap_cons, hext]
    rw [load_cands_fold_replies rest _ 1 (by omega)]
    simp
  | none =>
    have hstep : load_cands_step ⟨[], false, false, 0⟩ l0 =
        ⟨[], true, true, 1⟩ := by
      simp [load_cands_step, h0, hone, h2, hsf]
    have hext : replyFormExtract l0 = none := by
      simp [replyFormExtract, h0, hsf]
    unfold load_cands
    simp only [List.foldl_cons, hstep, List.filterMap_cons, hext]
    exact load_cands_fold_replies rest [] 1 (by omega)

/-- C8 witness: the claim's own scenario, parsed through
`load_cands_replyform`: the file with lines `"1 hi\tthere"` and
`"2 yo\tbuddy"` yields the candidates `["there", "buddy"]`. -/
theorem load_cands_replyform_witness :
    ((cleanLine ("1 hi\tthere").data).length ≠ 0 ∧
        (cleanLine ("1 hi\tthere").data).take 2 = ['1', ' '] ∧
        '\t' ∈ cleanLine ("1 hi\tthere").data) ∧
      load_cands [("1 hi\tthere").data, ("2 yo\tbuddy").data] =
        [("there").data, ("buddy").data] :=
  ⟨⟨by decide, by decide, by decide⟩,
    (load_cands_replyform ("1 hi\tthere").data [("2 yo\tbuddy").data] (by decide)
        (by decide) (by decide)).trans (by decide)⟩

/-- C8 counterexample: a line with a tab is *not* parsed in reply-form when
the file is not in numbered form — for the single-line file `"hi\tthere"`
the whole line is kept, not the field after the tab; and even in numbered
form the kept field is the text between the first and the second tab, not
everything after the first tab (`"1 a\tb\tc"` yields `"b"`, not
`"b\tc"`). -/
theorem load_cands_not_replyform :
    (load_cands [("hi\tthere").data] = [("hi\tthere").data] ∧
        ("hi\tthere").data ≠ ("there").data) ∧
      load_cands [("1 a\tb\tc").data] = [("b").data] ∧
        ("b").data ≠ ("b\tc").data := by
  refine ⟨⟨by decide, by decide⟩, by decide, by decide⟩

/-! ### Structural lemmas about the vectorizer and the sampler -/
theorem le_foldr_max (n : ℕ) (ns : List ℕ) (h : n ∈ ns) : n ≤ ns.foldr max 0 := by
  induction ns with
  | nil => cases h
  | cons m ms ih =>
    rcases List.mem_cons.mp h with rfl | h2
    · exact le_max_left _ _
    · exact le_trans (ih h2) (le_max_right _ _)

theorem foldr_max_perm {l1 l2 : List ℕ} (p : l1.Perm l2) :
    l1.foldr max 0 = l2.foldr max 0 := by
  induction p with
  | nil => rfl
  | cons x _ ih => simp only [List.foldr_cons, ih]
  | swap x y l => simp only [List.foldr_cons]; exact max_left_comm _ _ _
  | trans _ _ ih1 ih2 => exact ih1.trans ih2

theorem map_getD_range {α : Type} (l : List α) (d : α) :
    (List.range l.length).map (fun k => l.getD k d) = l := by
  apply List.ext_getElem
  · simp
  · intro i h1 h2
    simp only [List.getElem_map, List.getElem_range]
    exact List.getD_eq_getElem l d h2

theorem map_range_getD_take {α : Type} (l : List α) (d : α) (k : ℕ)
    (hk : k ≤ l.length) :
    (List.range k).map (fun i => l.getD i d) = l.take k := by
  apply List.ext_getElem
  · simp
    omega
  · intro i h1 h2
    simp only [List.getElem_map, List.getElem_range, List.getElem_take]
    have hi : i < l.length := by
      simp at h1
      omega
    exact List.getD_eq_getElem l d hi

theorem ind_sorted_perm_range (observations : List Obs) :
    (ind_sorted observations).Perm
      (List.range ((observations.filter validObs).length)) := by
  unfold ind_sorted
  have h1 := (sortDesc_perm
    ((((observations.filter validObs).map ctxOf).map List.length).enum)).map
    (fun p : ℕ × ℕ => p.1)
  rw [List.enum_map_fst] at h1
  simpa using h1

theorem sortedCtxs_perm (observations : List Obs) :
    (sortedCtxs observations).Perm ((observations.filter validObs).map ctxOf) := by
  unfold sortedCtxs
  have h1 := (ind_sorted_perm_range observations).map
    (fun k => ((observations.filter validObs).map ctxOf).getD k [])
  have h2 := map_getD_range ((observations.filter validObs).map ctxOf) []
  rw [List.length_map] at h2
  refine h1.trans ?_
  rw [h2]

theorem sortedValid_length (observations : List Obs) :
    (sortedValid observations).length = (observations.filter validObs).length := by
  unfold sortedValid
  simpa using (ind_sorted_perm_range observations).length_eq

theorem buildYs_length (parse : String → List ℤ) (truncate : Option ℕ)
    (labelDraws : ℕ → ℕ) (exs : List Obs) :
    (buildYs parse truncate labelDraws exs).length = exs.length := by
  simp [buildYs, padRows]

theorem vectorize_ys_spec (parse : String → List ℤ) (truncate : Option ℕ)
    (labelDraws : ℕ → ℕ) (observations : List Obs) (y : Mat)
    (h : (vectorize parse truncate labelDraws observations).ys = some y) :
    y = buildYs parse truncate labelDraws (sortedValid observations) ∧
      (observations.filter validObs) ≠ [] := by
  simp only [vectorize] at h
  by_cases hve : (observations.filter validObs).isEmpty
  · simp [hve] at h
  · simp only [hve, Bool.false_eq_true, if_false] at h
    by_cases hl : (sortedValid observations).any (fun ex => ex.labels.isSome)
    · simp only [hl, if_true] at h
      exact ⟨(Option.some.injEq _ _ ▸ h).symm, fun hnil => hve (by simp [hnil])⟩
    · simp [hl] at h

theorem vectorize_ys_ne_nil (parse : String → List ℤ) (truncate : Option ℕ)
    (labelDraws : ℕ → ℕ) (observations : List Obs) (y : Mat)
    (h : (vectorize parse truncate labelDraws observations).ys = some y) :
    y ≠ [] := by
  obtain ⟨hy, hne⟩ := vectorize_ys_spec parse truncate labelDraws observations y h
  intro hnil
  apply hne
  have hlen2 : (sortedValid observations).length = 0 := by
    have hb := buildYs_length parse truncate labelDraws (sortedValid observations)
    rw [← hy, hnil] at hb
    simpa using hb.symm
  rw [sortedValid_length observations] at hlen2
  exact List.length_eq_zero.mp hlen2

theorem get_negs_parrot0_mem {γ : Type} (sameFn : γ → γ → Bool)
    (inject : List ℤ → γ) (cache : List γ) (ys : γ) (k : ℕ) (utt : List ℤ)
    (draws : ℕ → ℕ) :
    ∀ n ∈ get_negs sameFn inject cache ys k 0 utt draws,
      n ∈ cache ∧ sameFn ys n = false := by
  unfold get_negs
  by_cases hc : cache.length < 2
  · simp [hc]
  · have hc0 : cache ≠ [] := by
      intro h
      rw [h] at hc
      simp at hc
    have hpar : ¬(0 < 0 ∧ 2 < utt.length) := by simp
    simp only [if_neg hc, hpar, if_false]
    intro n hn
    exact get_negs_loop_mem sameFn cache ys k draws hc0 _ [] (by simp) n hn

theorem leftAligned_pad (x : List ℤ) (k : ℕ) (hx : (0 : ℤ) ∉ x) :
    leftAligned (x ++ List.replicate k 0) = true := by
  unfold leftAligned
  have hdw : x.dropWhile (fun a => a != 0) = [] := by
    apply List.dropWhile_eq_nil_iff.mpr
    intro a ha
    exact bne_iff_ne.mpr (fun h => hx (h ▸ ha))
  rw [List.dropWhile_append, hdw]
  simp only [List.isEmpty_nil, if_true]
  cases k with
  | zero => simp
  | succ m =>
    rw [List.replicate_succ]
    simp [List.dropWhile_cons, List.all_eq_true, List.mem_replicate]

theorem vectorize_xs_spec (parse : String → List ℤ) (truncate : Option ℕ)
    (labelDraws : ℕ → ℕ) (observations : List Obs) (rows : Mat)
    (hxs : (vectorize parse truncate labelDraws observations).xs = some rows) :
    rows = padRows (maxLen (sortedCtxs observations)) (sortedCtxs observations) := by
  simp only [vectorize] at hxs
  by_cases hve : (observations.filter validObs).isEmpty
  · simp [hve] at hxs
  · simp only [hve, Bool.false_eq_true, if_false] at hxs
    exact (Option.some.injEq _ _ ▸ hxs).symm

/-- C6: for every non-empty batch of valid observations, the padded input
tensor built by the vectorizer is rectangular — every row has length equal to
the batch's maximum context length — and, when no valid observation's context
contains the null index, the padding index 0 never appears strictly before a
non-padding index in any row. -/
theorem vectorize_padded_batch (parse : String → List ℤ) (truncate : Option ℕ)
    (labelDraws : ℕ → ℕ) (observations : List Obs) (rows : Mat)
    (hxs : (vectorize parse truncate labelDraws observations).xs = some rows)
    (hnull : ∀ o ∈ observations, validObs o = true → (0 : ℤ) ∉ ctxOf o) :
    rectRows rows (maxLen ((observations.filter validObs).map ctxOf)) = true ∧
      rows.all leftAligned = true := by
  have hrows := vectorize_xs_spec parse truncate labelDraws observations rows hxs
  have hperm := sortedCtxs_perm observations
  have hmax : maxLen (sortedCtxs observations) =
      maxLen ((observations.filter validObs).map ctxOf) := by
    unfold maxLen
    exact foldr_max_perm (hperm.map List.length)
  have hmem : ∀ r ∈ rows, ∃ x ∈ sortedCtxs observations,
      r = x ++ List.replicate (maxLen (sortedCtxs observations) - x.length) 0 := by
    intro r hr
    rw [hrows] at hr
    rcases List.mem_map.mp hr with ⟨x, hx, hpad⟩
    exact ⟨x, hx, hpad.symm⟩
  constructor
  · apply List.all_eq_true.mpr
    intro r hr
    rcases hmem r hr with ⟨x, hx, rfl⟩
    have hle : x.length ≤ maxLen (sortedCtxs observations) := by
      unfold maxLen
      exact le_foldr_max x.length _ (List.mem_map.mpr ⟨x, hx, rfl⟩)
    simp only [beq_iff_eq, List.length_append, List.length_replicate]
    rw [← hmax]
    omega
  · apply List.all_eq_true.mpr
    intro r hr
    rcases hmem r hr with ⟨x, hx, rfl⟩
    have hx0 : (0 : ℤ) ∉ x := by
      have hx' : x ∈ (observations.filter validObs).map ctxOf :=
        hperm.mem_iff.mp hx
      rcases List.mem_map.mp hx' with ⟨o, ho, rfl⟩
      rcases List.mem_filter.mp ho with ⟨hobs, hval⟩
      exact hnull o hobs hval
    exact leftAligned_pad x _ hx0

/-- C6 witness: a concrete two-observation batch with contexts `[1, 2]` and
`[3]` padded to the rectangle `[[1, 2], [3, 0]]`. -/
theorem vectorize_padded_batch_witness :
    ((vectorize (fun _ => []) none (fun _ => 0)
          [⟨some [1, 2], none, none⟩, ⟨some [3], none, none⟩]).xs =
        some [[1, 2], [3, 0]] ∧
      (∀ o ∈ ([⟨some [1, 2], none, none⟩, ⟨some [3], none, none⟩] : List Obs),
        validObs o = true → (0 : ℤ) ∉ ctxOf o)) ∧
      rectRows [[1, 2], [3, 0]]
          (maxLen ((([⟨some [1, 2], none, none⟩, ⟨some [3], none, none⟩] :
            List Obs).filter validObs).map ctxOf)) = true ∧
        ([[1, 2], [3, 0]] : Mat).all leftAligned = true :=
  ⟨⟨by decide, by decide⟩,
    vectorize_padded_batch (fun _ => []) none (fun _ => 0)
      [⟨some [1, 2], none, none⟩, ⟨some [3], none, none⟩] [[1, 2], [3, 0]]
      (by decide) (by decide)⟩

/-- C5: for every training call (target present) whose negative sampling
yields zero negatives, the engine computes no loss and performs no optimizer
step — the abstract model-and-optimizer state is returned unchanged — the
reply record is the empty record (no metrics and no loss field), and the
target is nonetheless added to the negative-sample cache afterwards; with an
initially empty cache the cache size becomes 1. -/
theorem predict_no_negs_skips_training {μ : Type} (sameFn : Mat → Mat → Bool)
    (inject : List ℤ → Mat)
    (trainStep : μ → Mat → Mat → List Mat → μ × ℚ × List ℚ)
    (evalScores : μ → Mat → List Mat → List ℚ)
    (fixedCands : Option (List Mat × List String))
    (parse : String → List ℤ) (truncate : Option ℕ)
    (st : StarState μ) (observations : List Obs)
    (labelDraws negDraws : ℕ → ℕ) (addDraw : ℕ) (y : Mat)
    (hys : (vectorize parse truncate labelDraws observations).ys = some y)
    (hnegs : get_negs sameFn inject st.ysCache y st.negSamples st.parrotNeg
      st.lastUtterance negDraws = [])
    (hcap : 0 < st.ysCacheSz) :
    ∃ st' : StarState μ,
      batch_act sameFn inject trainStep evalScores fixedCands parse truncate st
          observations labelDraws negDraws addDraw = some ([Reply.empty], st') ∧
        st'.model = st.model ∧
        add_to_ys_cache (fun m => m.isEmpty) st.ysCache st.ysCacheSz (some y)
            addDraw = some st'.ysCache ∧
        (st.ysCache = [] → st'.ysCache.length = 1) := by
  have hy : y ≠ [] :=
    vectorize_ys_ne_nil parse truncate labelDraws observations y hys
  have hye : y.isEmpty = false := by
    cases y with
    | nil => exact absurd rfl hy
    | cons a l => rfl
  have hadd : ∃ c2, add_to_ys_cache (fun m => m.isEmpty) st.ysCache st.ysCacheSz
      (some y) addDraw = some c2 ∧ (st.ysCache = [] → c2.length = 1) := by
    by_cases hlt : st.ysCache.length < st.ysCacheSz
    · refine ⟨st.ysCache ++ [y], ?_, ?_⟩
      · simp [add_to_ys_cache, hye, hlt]
      · intro h
        simp [h]
    · have hc0 : ¬(st.ysCacheSz = 0) := by omega
      refine ⟨st.ysCache.set (addDraw % st.ysCacheSz) y, ?_, ?_⟩
      · simp [add_to_ys_cache, hye, hlt, hc0]
      · intro h
        rw [h] at hlt
        exact absurd hcap (by simpa using hlt)
  obtain ⟨c2, hc2, hc2len⟩ := hadd
  refine ⟨{ st with ysCache := c2 }, ?_, rfl, hc2, hc2len⟩
  simp only [batch_act, predict, hys, hnegs]
  simp [hc2]

/-- C5 witness: a training call on a single labeled observation against an
initially empty cache: the reply is the empty record, the model state is
untouched and the cache ends with exactly the one target. -/
theorem predict_no_negs_skips_training_witness :
    ((vectorize (fun _ => [7]) none (fun _ => 0)
          [⟨some [1], some ["a"], none⟩]).ys = some [[7]] ∧
        get_negs (fun (a b : Mat) => a == b) (fun u => [u]) ([] : List Mat)
          [[7]] 10 0 [] (fun _ => 0) = [] ∧
        (0 : ℕ) < 5) ∧
      ∃ st' : StarState Unit,
        batch_act (fun (a b : Mat) => a == b) (fun u => [u])
            (fun m _ _ _ => (m, 0, [])) (fun _ _ _ => []) none (fun _ => [7])
            none (⟨[], 5, 10, 0, [], ()⟩ : StarState Unit)
            [⟨some [1], some ["a"], none⟩] (fun _ => 0) (fun _ => 0) 0 =
          some ([Reply.empty], st') ∧
          st'.model = () ∧
          add_to_ys_cache (fun m => m.isEmpty) ([] : List Mat) 5 (some [[7]]) 0 =
            some st'.ysCache ∧
          (([] : List Mat) = [] → st'.ysCache.length = 1) :=
  ⟨⟨by decide, by decide, by decide⟩,
    predict_no_negs_skips_training (fun (a b : Mat) => a == b) (fun u => [u])
      (fun m _ _ _ => (m, 0, [])) (fun _ _ _ => []) none (fun _ => [7]) none
      (⟨[], 5, 10, 0, [], ()⟩ : StarState Unit) [⟨some [1], some ["a"], none⟩]
      (fun _ => 0) (fun _ => 0) 0 [[7]] (by decide) (by decide) (by decide)⟩

/-- C9: within one agent instance, a training-mode `batch_act` call samples
its negatives from the cache state *before* this call's target is written:
the final cache is the write applied to the pre-call cache, and every
sampled negative is an entry of the pre-write cache that is not the same as
the target — so a step never samples the target it is about to insert
(stated for the default configuration with parrot-negatives disabled). -/
theorem batch_act_samples_before_write {μ : Type} (sameFn : Mat → Mat → Bool)
    (inject : List ℤ → Mat)
    (trainStep : μ → Mat → Mat → List Mat → μ × ℚ × List ℚ)
    (evalScores : μ → Mat → List Mat → List ℚ)
    (fixedCands : Option (List Mat × List String))
    (parse : String → List ℤ) (truncate : Option ℕ)
    (st : StarState μ) (observations : List Obs)
    (labelDraws negDraws : ℕ → ℕ) (addDraw : ℕ) (y : Mat)
    (hys : (vectorize parse truncate labelDraws observations).ys = some y)
    (hpar : st.parrotNeg = 0) (hcap : 0 < st.ysCacheSz) :
    ∃ (rs : List Reply) (st' : StarState μ),
      batch_act sameFn inject trainStep evalScores fixedCands parse truncate st
          observations labelDraws negDraws addDraw = some (rs, st') ∧
        add_to_ys_cache (fun m => m.isEmpty) st.ysCache st.ysCacheSz (some y)
            addDraw = some st'.ysCache ∧
        ∀ n ∈ get_negs sameFn inject st.ysCache y st.negSamples st.parrotNeg
            st.lastUtterance negDraws,
          n ∈ st.ysCache ∧ sameFn y n = false := by
  have hadd : ∃ c2, add_to_ys_cache (fun m => m.isEmpty) st.ysCache st.ysCacheSz
      (some y) addDraw = some c2 := by
    rcases Bool.eq_false_or_eq_true y.isEmpty with hye | hye
    · exact ⟨st.ysCache, by simp [add_to_ys_cache, hye]⟩
    · by_cases hlt : st.ysCache.length < st.ysCacheSz
      · exact ⟨st.ysCache ++ [y], by simp [add_to_ys_cache, hye, hlt]⟩
      · have hc0 : ¬(st.ysCacheSz = 0) := by omega
        exact ⟨st.ysCache.set (addDraw % st.ysCacheSz) y,
          by simp [add_to_ys_cache, hye, hlt, hc0]⟩
  obtain ⟨c2, hc2⟩ := hadd
  refine ⟨(predict sameFn inject trainStep evalScores fixedCands st
      (vectorize parse truncate labelDraws observations) negDraws).1,
    { st with
      ysCache := c2
      model := (predict sameFn inject trainStep evalScores fixedCands st
        (vectorize parse truncate labelDraws observations) negDraws).2 },
    ?_, hc2, ?_⟩
  · simp only [batch_act, hys, hc2]
  · rw [hpar]
    exact fun n hn => get_negs_parrot0_mem sameFn inject st.ysCache y
      st.negSamples st.lastUtterance negDraws n hn

/-- C9 witness: a concrete training call with parrot-negatives disabled on a
one-entry cache. -/
theorem batch_act_samples_before_write_witness :
    ((vectorize (fun _ => [8]) none (fun _ => 0)
          [⟨some [4], some ["b"], none⟩]).ys = some [[8]] ∧
        (⟨[[[9]]], 7, 10, 0, [], ()⟩ : StarState Unit).parrotNeg = 0 ∧
        (0 : ℕ) < 7) ∧
      ∃ (rs : List Reply) (st' : StarState Unit),
        batch_act (fun (a b : Mat) => a == b) (fun u => [u])
            (fun m _ _ _ => (m, 0, [])) (fun _ _ _ => []) none (fun _ => [8])
            none (⟨[[[9]]], 7, 10, 0, [], ()⟩ : StarState Unit)
            [⟨some [4], some ["b"], none⟩] (fun _ => 0) (fun _ => 0) 0 =
          some (rs, st') ∧
          add_to_ys_cache (fun m => m.isEmpty) [[[9]]] 7 (some [[8]]) 0 =
            some st'.ysCache ∧
          ∀ n ∈ get_negs (fun (a b : Mat) => a == b) (fun u => [u]) [[[9]]]
              [[8]] 10 0 [] (fun _ => 0),
            n ∈ [[[9]]] ∧ (([[8]] : Mat) == n) = false :=
  ⟨⟨by decide, by decide, by decide⟩,
    batch_act_samples_before_write (fun (a b : Mat) => a == b) (fun u => [u])
      (fun m _ _ _ => (m, 0, [])) (fun _ _ _ => []) none (fun _ => [8]) none
      (⟨[[[9]]], 7, 10, 0, [], ()⟩ : StarState Unit)
      [⟨some [4], some ["b"], none⟩] (fun _ => 0) (fun _ => 0) 0 [[8]]
      (by decide) (by decide) (by decide)⟩

/-- C4 (failing input): `predict` always returns a single-element reply list
(`[{'metrics': ...}]`, `[{'text': ...}]` or `[{}]`), which `batch_act`
returns as the whole batch reply after discarding the initialized per-slot
reply table; `vectorize` computes the original positions `valid_inds` but
never returns them, so no remapping to original batch positions happens.
For a batch of two valid labeled observations the reply list has length
1, not one reply slot per input observation. -/
theorem batch_act_single_reply_for_two :
    Option.map (fun pr => pr.1.length)
        (batch_act (fun (a b : Mat) => a == b) (fun u => [u])
          (fun m _ _ _ => (m, 0, [])) (fun _ _ _ => []) none (fun _ => [7]) none
          (⟨[], 5, 10, 0, [], ()⟩ : StarState Unit)
          [⟨some [1], some ["a"], none⟩, ⟨some [2], some ["b"], none⟩]
          (fun _ => 0) (fun _ => 0) 0) = some 1 ∧
      ([⟨some [1], some ["a"], none⟩, ⟨some [2], some ["b"], none⟩] :
        List Obs).length = 2 := by
  constructor
  · decide
  · decide

/-- C7: an inference call (no target) whose first observation carries a
non-null candidate set ranks the candidates: with `S` the per-candidate
cosine scores of the external embedding model, the reply is a record whose
`text` is the top-ranked candidate's string and whose `text_candidates` are
the texts of the first `min 100 n` candidates of a ranking `perm` that is a
permutation of all candidate indices, ordered by non-increasing score, and
stable — indices with equal scores stay in their original candidate order;
the model state is untouched. -/
theorem predict_eval_ranks {μ : Type} (sameFn : Mat → Mat → Bool)
    (inject : List ℤ → Mat)
    (trainStep : μ → Mat → Mat → List Mat → μ × ℚ × List ℚ)
    (evalScores : μ → Mat → List Mat → List ℚ)
    (fixedCands : Option (List Mat × List String))
    (st : StarState μ) (xs : Option Mat) (c0 : List Mat)
    (cl : List (Option (List Mat))) (texts0 : List String)
    (ctl : List (Option (List String))) (negDraws : ℕ → ℕ)
    (hlen : (evalScores st.model (xs.getD []) c0).length = texts0.length)
    (hpos : 0 < texts0.length) :
    ∃ perm : List ℕ,
      predict sameFn inject trainStep evalScores fixedCands st
          ⟨xs, none, some (some c0 :: cl), some (some texts0 :: ctl)⟩ negDraws =
        ([Reply.ranked (texts0.getD (perm.headD 0) "")
            ((perm.take (min 100 perm.length)).map (fun i => texts0.getD i ""))],
          st.model) ∧
        perm.length = texts0.length ∧
        perm.Perm (List.range texts0.length) ∧
        perm.Pairwise (fun i j =>
          (evalScores st.model (xs.getD []) c0).getD j 0 ≤
            (evalScores st.model (xs.getD []) c0).getD i 0) ∧
        ∀ c : ℚ,
          perm.filter (fun i =>
              decide ((evalScores st.model (xs.getD []) c0).getD i 0 = c)) =
            (List.range texts0.length).filter (fun i =>
              decide ((evalScores st.model (xs.getD []) c0).getD i 0 = c)) := by
  set S := evalScores st.model (xs.getD []) c0 with hS
  have henum : ∀ p ∈ S.enum, p.2 = S.getD p.1 0 := by
    rintro ⟨i, x⟩ hp
    obtain ⟨hi, hx⟩ := List.mem_enum hp
    rw [List.getD_eq_getElem S 0 hi]
    exact hx
  have hsortmem : ∀ p ∈ sortDesc S.enum, p ∈ S.enum :=
    fun p hp => (sortDesc_perm S.enum).mem_iff.mp hp
  have hpermR : ((sortDesc S.enum).map (fun p => p.1)).Perm
      (List.range S.length) := by
    have h := (sortDesc_perm S.enum).map (fun p : ℕ × ℚ => p.1)
    rwa [List.enum_map_fst] at h
  have hpw2 : (sortDesc S.enum).Pairwise
      (fun a b => S.getD b.1 0 ≤ S.getD a.1 0) := by
    refine List.Pairwise.imp_of_mem ?_ (pairwise_sortDesc S.enum)
    intro a b ha hb hab
    rw [← henum a (hsortmem a ha), ← henum b (hsortmem b hb)]
    exact hab
  refine ⟨(sortDesc S.enum).map (fun p => p.1), ?_, ?_, ?_, ?_, ?_⟩
  · have htc : (List.range
        (min 100 ((sortDesc S.enum).map (fun p => p.1)).length)).map
          (fun i => texts0.getD (((sortDesc S.enum).map (fun p => p.1)).getD i 0) "") =
        (((sortDesc S.enum).map (fun p => p.1)).take
            (min 100 ((sortDesc S.enum).map (fun p => p.1)).length)).map
          (fun i => texts0.getD i "") := by
      rw [← map_range_getD_take ((sortDesc S.enum).map (fun p => p.1)) 0
        (min 100 ((sortDesc S.enum).map (fun p => p.1)).length)
        (min_le_right _ _), List.map_map]
      rfl
    show ([rank_candidates S texts0], st.model) = _
    simp only [rank_candidates]
    rw [htc]
  · rw [← hlen]
    simpa using hpermR.length_eq
  · rw [← hlen]
    exact hpermR
  · exact List.pairwise_map.mpr hpw2
  · intro c
    have h1 : ((sortDesc S.enum).map (fun p => p.1)).filter
        (fun i => decide (S.getD i 0 = c)) =
        ((sortDesc S.enum).filter (fun q => decide (q.2 = c))).map
          (fun p => p.1) := by
      rw [List.filter_map]
      congr 1
      apply List.filter_congr
      intro q hq
      simp only [Function.comp]
      rw [← henum q (hsortmem q hq)]
    have h2 : (S.enum.filter (fun q => decide (q.2 = c))).map (fun p => p.1) =
        (List.range S.length).filter (fun i => decide (S.getD i 0 = c)) := by
      rw [← List.enum_map_fst S, List.filter_map]
      congr 1
      apply List.filter_congr
      intro q hq
      simp only [Function.comp]
      rw [← henum q hq]
    rw [h1, filter_sortDesc, h2, hlen]

/-- C7 witness: scores `[1, 2, 2]` over candidates `["a", "b", "c"]` — the
stable descending ranking is `b, c, a`. -/
theorem predict_eval_ranks_witness :
    (((fun (_ : Unit) (_ : Mat) (_ : List Mat) => [(1 : ℚ), 2, 2]) ()
          ((none : Option Mat).getD []) ([] : List Mat)).length =
          (["a", "b", "c"] : List String).length ∧
        (0 : ℕ) < (["a", "b", "c"] : List String).length) ∧
      ∃ perm : List ℕ,
        predict (fun (a b : Mat) => a == b) (fun u => [u])
            (fun m _ _ _ => (m, 0, []))
            (fun (_ : Unit) (_ : Mat) (_ : List Mat) => [(1 : ℚ), 2, 2]) none
            (⟨[], 5, 10, 0, [], ()⟩ : StarState Unit)
            ⟨none, none, some [some []], some [some ["a", "b", "c"]]⟩
            (fun _ => 0) =
          ([Reply.ranked ((["a", "b", "c"] : List String).getD (perm.headD 0) "")
              ((perm.take (min 100 perm.length)).map
                (fun i => (["a", "b", "c"] : List String).getD i ""))], ()) ∧
          perm.length = 3 ∧
          perm.Perm (List.range 3) ∧
          perm.Pairwise (fun i j =>
            ([(1 : ℚ), 2, 2] : List ℚ).getD j 0 ≤
              ([(1 : ℚ), 2, 2] : List ℚ).getD i 0) ∧
          ∀ c : ℚ,
            perm.filter (fun i => decide (([(1 : ℚ), 2, 2] : List ℚ).getD i 0 = c)) =
              (List.range 3).filter
                (fun i => decide (([(1 : ℚ), 2, 2] : List ℚ).getD i 0 = c)) :=
  ⟨⟨rfl, by decide⟩,
    predict_eval_ranks (fun (a b : Mat) => a == b) (fun u => [u])
      (fun m _ _ _ => (m, 0, []))
      (fun (_ : Unit) (_ : Mat) (_ : List Mat) => [(1 : ℚ), 2, 2]) none
      (⟨[], 5, 10, 0, [], ()⟩ : StarState Unit) none [] [] ["a", "b", "c"] []
      (fun _ => 0) rfl (by decide)⟩

end Starspace

